import Mathlib

/-!
Verification of the constants source generator `tools/generate_source.py`.

The generator loads a YAML database (`pcd.yaml`), whose payload is a `set`
sequence of single-key mappings (group name ↦ group), optionally filters the
groups by name, and writes a C++ (`cxx`) or Fortran (`f90`) source file.

Embedding conventions:
* source text is embedded as `List Char` (`Str`); `str` turns a Lean string
  literal into that representation;
* a parsed YAML mapping is an association list in document order, as produced
  by the YAML parser (so its keys are distinct; quantified theorems that
  exercise multi-key mappings carry that distinctness as a hypothesis);
* the output file is represented by the sequence of strings passed to the
  `ofile.write` calls, in order; the byte content of the file is the
  concatenation (`List.flatten`) of those chunks;
* file I/O is made explicit: `generate_file` receives the prior state of the
  output path (`none` when no file exists) and returns the posterior state
  together with the `Except` outcome standing for Python's raised exceptions.
  Opening the output path with mode `w` truncates it, i.e. sets the state to
  `some []`.
-/

namespace PCD

/-- Source-code text, embedded as a list of characters. -/
abbrev Str := List Char

/-- Characters of a Lean string literal. -/
def str (s : String) : Str := s.data

/-- One constant: the `symbol` and `value` fields of an entry of a group's
`entries` sequence. Values are kept as text, exactly as they are interpolated
into the output. -/
structure ConstantEntry where
  symbol : Str
  value : Str
deriving DecidableEq

/-- One group: the object mapped to by a group name, with its `entries`
sequence. -/
structure Group where
  entries : List ConstantEntry
deriving DecidableEq

/-- One element of the database's `set` sequence: a parsed YAML mapping from
group names to groups, in document order. A well-formed element has exactly
one key. -/
abbrev SetEntry := List (Str × Group)

/-- The exceptions `generate_file` can raise: `ValueError` for a malformed
database, `ValueError` for an invalid group selection (carrying the requested
names and the valid group names interpolated into the message), and
`RuntimeError` for a missing language implementation (carrying the message). -/
inductive Err where
  | malformedDatabase : Err
  | invalidGroupSelection : List Str → List Str → Err
  | configurationError : Str → Err
deriving DecidableEq

/-- Results of fallible steps can be compared by a decision procedure. -/
instance {α β : Type} [DecidableEq α] [DecidableEq β] : DecidableEq (Except α β) := fun x y =>
  match x, y with
  | .ok a, .ok b =>
    if h : a = b then .isTrue (by rw [h]) else .isFalse (by intro hc; cases hc; exact h rfl)
  | .error a, .error b =>
    if h : a = b then .isTrue (by rw [h]) else .isFalse (by intro hc; cases hc; exact h rfl)
  | .ok _, .error _ => .isFalse (by intro hc; cases hc)
  | .error _, .ok _ => .isFalse (by intro hc; cases hc)

/-- The message carried by each exception, rendered as in the Python source. -/
def errMessage : Err → Str
  | .malformedDatabase =>
      str "Invalid formatting of pcd database. Each entry of the \"set\" sequence should contain ONE dictionary"
  | .invalidGroupSelection req valid =>
      str "Invalid value for groups: " ++ List.intercalate [','] req ++
        str ". Valid choices are " ++ List.intercalate [','] valid
  | .configurationError m => m

/-- Python dict assignment `d[k] = v` on an association list: if `k` is
already a key, its value is replaced in place; otherwise `(k, v)` is appended. -/
def dictInsert (al : List (Str × Group)) (k : Str) (v : Group) : List (Str × Group) :=
  if al.any (fun p => decide (p.1 = k)) then
    al.map (fun p => if p.1 = k then (k, v) else p)
  else
    al ++ [(k, v)]

/-- The loading loop of `generate_file` (lines 58-66): for each element `g` of
the `set` sequence, raise `ValueError` when `len(g.keys()) > 1`, otherwise
insert every item of `g` into `groups_in_file`. -/
def loadGroupsAux (acc : List (Str × Group)) : List SetEntry → Except Err (List (Str × Group))
  | [] => .ok acc
  | g :: rest =>
    if 1 < g.length then
      .error .malformedDatabase
    else
      loadGroupsAux (g.foldl (fun a p => dictInsert a p.1 p.2) acc) rest

/-- Build `groups_in_file` from the database's `set` sequence. -/
def loadGroups (pcdSet : List SetEntry) : Except Err (List (Str × Group)) :=
  loadGroupsAux [] pcdSet

/-- The list `valid_groups = list(groups_in_file.keys())`. -/
def validGroupsOf (m : List (Str × Group)) : List Str := m.map Prod.fst

/-- The file-header write calls for a language, or the `RuntimeError` raised
when no header is implemented for it. -/
def fileHeader (lang : Str) : Except Err (List Str) :=
  if lang = str "cxx" then
    .ok [str "#ifndef E3SM_CONSTANTS_HPP\n",
         str "#define E3SM_CONSTANTS_HPP\n\n",
         str "namespace e3sm \x7b\n"]
  else if lang = str "f90" then
    .ok [str "module e3sm_constants\n",
         str "    implicit none\n\n",
         str "    !define double precision kind\n",
         str "    integer, parameter :: dp = selected_real_kind(15, 307)  ! Double precision\n"]
  else
    .error (.configurationError (str "Missing implementation of file header for language " ++ lang))

/-- The group-header comment write call, or the `RuntimeError` for a language
with no section-name implementation. -/
def sectionHeader (lang gname : Str) : Except Err Str :=
  if lang = str "cxx" then
    .ok (str "\n// " ++ gname ++ str " constants\n")
  else if lang = str "f90" then
    .ok (str "\n    !" ++ gname ++ str " constants\n")
  else
    .error (.configurationError (str "Missing implementation of section name for language " ++ lang))

/-- The declaration write call for one constant, or the `RuntimeError` for a
language with no constant-entry implementation. -/
def declLine (lang : Str) (c : ConstantEntry) : Except Err Str :=
  if lang = str "cxx" then
    .ok (str "constexpr double " ++ c.symbol ++ str " = " ++ c.value ++ str ";\n")
  else if lang = str "f90" then
    .ok (str "    real(dp), parameter :: " ++ c.symbol ++ str " = " ++ c.value ++ str "_dp\n")
  else
    .error (.configurationError (str "Missing implementation of constant entry for language " ++ lang))

/-- The file-footer write calls, or the `RuntimeError` for a language with no
footer implementation. -/
def fileFooter (lang : Str) : Except Err (List Str) :=
  if lang = str "cxx" then
    .ok [str "\n\x7d // namespace e3sm \n",
         str "#endif // E3SM_CONSTANTS_HPP"]
  else if lang = str "f90" then
    .ok [str "\nend module e3sm_constants"]
  else
    .error (.configurationError (str "Missing implementation of file footer for language " ++ lang))

/-- The test `groups is None or gname in groups`. -/
def selected (groups : Option (List Str)) (gname : Str) : Bool :=
  match groups with
  | none => true
  | some gs => gs.any (fun x => decide (x = gname))

/-- The inner loop over a group's `entries`: each constant appends one
declaration chunk; a missing implementation stops the loop mid-file. -/
def emitEntries (lang : Str) (cs : List ConstantEntry) (acc : List Str) :
    List Str × Except Err Unit :=
  match cs with
  | [] => (acc, .ok ())
  | c :: rest =>
    match declLine lang c with
    | .ok s => emitEntries lang rest (acc ++ [s])
    | .error e => (acc, .error e)

/-- The content loop of `generate_file` (lines 88-110): iterate
`groups_in_file.items()` in order; each selected group appends its
group-header comment followed by one declaration per entry. -/
def emitGroups (lang : Str) (groups : Option (List Str)) (items : List (Str × Group))
    (acc : List Str) : List Str × Except Err Unit :=
  match items with
  | [] => (acc, .ok ())
  | (gname, grp) :: rest =>
    if selected groups gname then
      match sectionHeader lang gname with
      | .error e => (acc, .error e)
      | .ok s =>
        match emitEntries lang grp.entries (acc ++ [s]) with
        | (acc2, .ok _) => emitGroups lang groups rest acc2
        | (acc2, .error e) => (acc2, .error e)
    else
      emitGroups lang groups rest acc

/-- Everything inside `with open(filename, 'w') as ofile:`: the open call
truncates the file to empty, then header, content and footer chunks are
appended; a raised `RuntimeError` leaves the chunks written so far in the
file (the `with` block closes it on every path). -/
def writePhase (lang : Str) (groups : Option (List Str)) (gif : List (Str × Group)) :
    Option (List Str) × Except Err Unit :=
  match fileHeader lang with
  | .error e => (some [], .error e)
  | .ok hdr =>
    match emitGroups lang groups gif hdr with
    | (acc, .error e) => (some acc, .error e)
    | (acc, .ok _) =>
      match fileFooter lang with
      | .error e => (some acc, .error e)
      | .ok ftr => (some (acc ++ ftr), .ok ())

/-- `generate_file(lang, groups, filename)` of `tools/generate_source.py`,
with the parsed `set` sequence of `pcd.yaml` and the prior state of the output
path passed explicitly. Validation (malformed database, then invalid group
selection) happens before the output file is opened; only then is the file
truncated and written. -/
def generate_file (lang : Str) (groups : Option (List Str)) (pcdSet : List SetEntry)
    (prior : Option (List Str)) : Option (List Str) × Except Err Unit :=
  match loadGroups pcdSet with
  | .error e => (prior, .error e)
  | .ok gif =>
    let valid_groups := validGroupsOf gif
    match groups with
    | some gs =>
      if gs.any (fun item => decide (¬ item ∈ valid_groups)) then
        (prior, .error (.invalidGroupSelection gs valid_groups))
      else
        writePhase lang (some gs) gif
    | none => writePhase lang none gif

/-- Python `d[k]` on the association-list model, as used for `group['entries']`
lookups: the value at the first occurrence of the key. -/
def lookupGroup (m : List (Str × Group)) (k : Str) : Option Group :=
  (m.find? (fun p => decide (p.1 = k))).map Prod.snd

/-- If `l` ends with the tail `t`, return what precedes it. -/
def stripTail (t l : Str) : Option Str :=
  if l = l.take (l.length - t.length) ++ t then some (l.take (l.length - t.length)) else none

/-- Recognise a `cxx` group-header comment chunk and extract the group name. -/
def parseSectionCxx : Str → Option Str
  | '\n' :: '/' :: '/' :: ' ' :: rest => stripTail (str " constants\n") rest
  | _ => none

/-- Recognise an `f90` group-header comment chunk and extract the group name. -/
def parseSectionF90 : Str → Option Str
  | '\n' :: ' ' :: ' ' :: ' ' :: ' ' :: '!' :: rest => stripTail (str " constants\n") rest
  | _ => none

/-- The group-header recogniser of the requested language. -/
def parseSection (lang chunk : Str) : Option Str :=
  if lang = str "cxx" then parseSectionCxx chunk
  else if lang = str "f90" then parseSectionF90 chunk
  else none

/-- Collect the group names of all group-header comment chunks of an output,
in order. -/
def reparseGroupHeaders (lang : Str) (chunks : List Str) : List Str :=
  chunks.filterMap (parseSection lang)

/-! ### Helper functions and lemmas about the emission phase -/

/-- The two language selectors for which every emission rule is implemented. -/
def langOk (lang : Str) : Prop := lang = str "cxx" ∨ lang = str "f90"

/-- The header chunks of an implemented language. -/
def hdrChunks (lang : Str) : List Str :=
  if lang = str "cxx" then
    [str "#ifndef E3SM_CONSTANTS_HPP\n",
     str "#define E3SM_CONSTANTS_HPP\n\n",
     str "namespace e3sm \x7b\n"]
  else
    [str "module e3sm_constants\n",
     str "    implicit none\n\n",
     str "    !define double precision kind\n",
     str "    integer, parameter :: dp = selected_real_kind(15, 307)  ! Double precision\n"]

/-- The footer chunks of an implemented language. -/
def ftrChunks (lang : Str) : List Str :=
  if lang = str "cxx" then
    [str "\n\x7d // namespace e3sm \n",
     str "#endif // E3SM_CONSTANTS_HPP"]
  else
    [str "\nend module e3sm_constants"]

/-- The group-header comment chunk of an implemented language. -/
def sectChunk (lang gname : Str) : Str :=
  if lang = str "cxx" then
    str "\n// " ++ gname ++ str " constants\n"
  else
    str "\n    !" ++ gname ++ str " constants\n"

/-- The declaration chunk of an implemented language. -/
def declChunk (lang : Str) (c : ConstantEntry) : Str :=
  if lang = str "cxx" then
    str "constexpr double " ++ c.symbol ++ str " = " ++ c.value ++ str ";\n"
  else
    str "    real(dp), parameter :: " ++ c.symbol ++ str " = " ++ c.value ++ str "_dp\n"

/-- Everything a selected group contributes to the output: its group-header
comment followed by one declaration per entry. -/
def groupBlock (lang : Str) (p : Str × Group) : List Str :=
  sectChunk lang p.1 :: p.2.entries.map (declChunk lang)

theorem fileHeader_ok {lang : Str} (h : langOk lang) : fileHeader lang = .ok (hdrChunks lang) := by
  rcases h with h | h <;> subst h <;> decide

theorem fileFooter_ok {lang : Str} (h : langOk lang) : fileFooter lang = .ok (ftrChunks lang) := by
  rcases h with h | h <;> subst h <;> decide

theorem sectionHeader_ok {lang : Str} (h : langOk lang) (gname : Str) :
    sectionHeader lang gname = .ok (sectChunk lang gname) := by
  rcases h with h | h <;> subst h <;> rfl

theorem declLine_ok {lang : Str} (h : langOk lang) (c : ConstantEntry) :
    declLine lang c = .ok (declChunk lang c) := by
  rcases h with h | h <;> subst h <;> rfl

theorem emitEntries_eq {lang : Str} (h : langOk lang) (cs : List ConstantEntry) (acc : List Str) :
    emitEntries lang cs acc = (acc ++ cs.map (declChunk lang), .ok ()) := by
  induction cs generalizing acc with
  | nil => simp [emitEntries]
  | cons c rest ih =>
    simp [emitEntries, declLine_ok h, ih]

theorem emitGroups_eq {lang : Str} (h : langOk lang) (groups : Option (List Str))
    (items : List (Str × Group)) (acc : List Str) :
    emitGroups lang groups items acc =
      (acc ++ ((items.filter (fun p => selected groups p.1)).map (groupBlock lang)).flatten,
       .ok ()) := by
  induction items generalizing acc with
  | nil => simp [emitGroups]
  | cons p rest ih =>
    obtain ⟨gname, grp⟩ := p
    by_cases hs : selected groups gname
    · simp only [emitGroups, hs, if_true, sectionHeader_ok h, emitEntries_eq h, ih,
        List.filter_cons]
      simp [groupBlock, List.append_assoc]
    · simp only [emitGroups, hs, if_false, ih, List.filter_cons]
      simp [hs]

theorem writePhase_eq {lang : Str} (h : langOk lang) (groups : Option (List Str))
    (gif : List (Str × Group)) :
    writePhase lang groups gif =
      (some (hdrChunks lang ++
             ((gif.filter (fun p => selected groups p.1)).map (groupBlock lang)).flatten ++
             ftrChunks lang),
       .ok ()) := by
  simp [writePhase, fileHeader_ok h, fileFooter_ok h, emitGroups_eq h, List.append_assoc]

/-! ### Lemmas about the loading phase -/

theorem loadGroupsAux_error_of (l : List SetEntry) (acc : List (Str × Group))
    (h : ∃ g ∈ l, 1 < g.length) :
    loadGroupsAux acc l = .error .malformedDatabase := by
  induction l generalizing acc with
  | nil => exact absurd h (by rintro ⟨g, hg, -⟩; exact List.not_mem_nil g hg)
  | cons g rest ih =>
    by_cases hg : 1 < g.length
    · simp only [loadGroupsAux, if_pos hg]
    · simp only [loadGroupsAux, if_neg hg]
      rcases h with ⟨g', hg', hlen⟩
      rcases List.mem_cons.mp hg' with rfl | hmem
      · exact absurd hlen hg
      · exact ih _ ⟨g', hmem, hlen⟩

theorem loadGroupsAux_ok_of (l : List SetEntry) (acc : List (Str × Group))
    (h : ∀ g ∈ l, ¬ 1 < g.length) :
    ∃ m, loadGroupsAux acc l = .ok m := by
  induction l generalizing acc with
  | nil => exact ⟨acc, rfl⟩
  | cons g rest ih =>
    have hg : ¬ 1 < g.length := h g (List.mem_cons_self g rest)
    simp only [loadGroupsAux, if_neg hg]
    exact ih _ (fun g' hg' => h g' (List.mem_cons_of_mem g hg'))

theorem loadGroupsAux_malformed_iff (l : List SetEntry) (acc : List (Str × Group)) :
    loadGroupsAux acc l = .error .malformedDatabase ↔ ∃ g ∈ l, 1 < g.length := by
  constructor
  · intro herr
    by_contra hno
    push_neg at hno
    obtain ⟨m, hm⟩ := loadGroupsAux_ok_of l acc (fun g hg => Nat.not_lt.mpr (hno g hg))
    rw [hm] at herr
    exact Except.noConfusion herr
  · exact loadGroupsAux_error_of l acc

theorem dictInsert_cons_of_ne (a : Str × Group) (al : List (Str × Group)) (k : Str) (v : Group)
    (h : ¬ a.1 = k) :
    dictInsert (a :: al) k v = a :: dictInsert al k v := by
  unfold dictInsert
  by_cases hal : al.any (fun p => decide (p.1 = k)) = true
  · rw [if_pos, if_pos hal]
    · simp [h]
    · simp only [List.any_cons, hal, Bool.or_true]
  · rw [if_neg, if_neg hal]
    · rfl
    · simp only [List.any_cons, hal, Bool.or_false, decide_eq_true_eq]
      exact h

theorem find?_replace_self (al : List (Str × Group)) (k : Str) (v : Group)
    (h : ∃ p ∈ al, p.1 = k) :
    (al.map (fun p => if p.1 = k then (k, v) else p)).find? (fun p => decide (p.1 = k)) =
      some (k, v) := by
  induction al with
  | nil => exact absurd h (by rintro ⟨p, hp, -⟩; exact List.not_mem_nil p hp)
  | cons a al ih =>
    rw [List.map_cons]
    by_cases ha : a.1 = k
    · rw [if_pos ha, List.find?_cons_of_pos _ (by simp)]
    · rw [if_neg ha, List.find?_cons_of_neg _ (by simpa using ha)]
      rcases h with ⟨p, hp, hpk⟩
      rcases List.mem_cons.mp hp with rfl | hmem
      · exact absurd hpk ha
      · exact ih ⟨p, hmem, hpk⟩

theorem find?_replace_other (al : List (Str × Group)) (k k' : Str) (v : Group)
    (h : ¬ k' = k) :
    (al.map (fun p => if p.1 = k then (k, v) else p)).find? (fun p => decide (p.1 = k')) =
      al.find? (fun p => decide (p.1 = k')) := by
  induction al with
  | nil => rfl
  | cons a al ih =>
    rw [List.map_cons]
    by_cases ha : a.1 = k
    · rw [if_pos ha, List.find?_cons_of_neg _ (by simpa using fun hk => h hk.symm),
        List.find?_cons_of_neg _ (by simpa using fun hk => h ((ha.symm.trans hk).symm))]
      exact ih
    · by_cases ha' : a.1 = k'
      · rw [if_neg ha, List.find?_cons_of_pos _ (by simpa using ha'),
          List.find?_cons_of_pos _ (by simpa using ha')]
      · rw [if_neg ha, List.find?_cons_of_neg _ (by simpa using ha'),
          List.find?_cons_of_neg _ (by simpa using ha')]
        exact ih

theorem lookupGroup_dictInsert (al : List (Str × Group)) (k k' : Str) (v : Group) :
    lookupGroup (dictInsert al k v) k' = if k' = k then some v else lookupGroup al k' := by
  unfold dictInsert lookupGroup
  by_cases hal : al.any (fun p => decide (p.1 = k)) = true
  · rw [if_pos hal]
    by_cases hk : k' = k
    · subst hk
      have hex : ∃ p ∈ al, p.1 = k' := by
        obtain ⟨p, hp, hpk⟩ := List.any_eq_true.mp hal
        exact ⟨p, hp, of_decide_eq_true hpk⟩
      rw [find?_replace_self al k' v hex, if_pos rfl]
      rfl
    · rw [find?_replace_other al k k' v hk, if_neg hk]
  · rw [if_neg hal, List.find?_append]
    by_cases hk : k' = k
    · subst hk
      have hnone : al.find? (fun p => decide (p.1 = k')) = none := by
        rw [List.find?_eq_none]
        intro p hp
        simp only [decide_eq_true_eq]
        intro hpk
        exact hal (List.any_eq_true.mpr ⟨p, hp, by simp [hpk]⟩)
      rw [hnone, if_pos rfl, List.find?_cons_of_pos _ (by simp)]
      rfl
    · rw [if_neg hk]
      have hone : ([(k, v)] : List (Str × Group)).find? (fun p => decide (p.1 = k')) = none :=
        List.find?_cons_of_neg _ (by simpa using fun hkk => hk hkk.symm)
      rw [hone, Option.or_none]

theorem loadGroupsAux_lookup (l : List SetEntry) (acc : List (Str × Group))
    (hl : ∀ g ∈ l, ¬ 1 < g.length) :
    ∃ m, loadGroupsAux acc l = .ok m ∧
      ∀ k, lookupGroup m k =
        ((l.flatten.reverse.find? (fun p => decide (p.1 = k))).map Prod.snd).or
          (lookupGroup acc k) := by
  induction l generalizing acc with
  | nil => exact ⟨acc, rfl, fun k => by simp⟩
  | cons g rest ih =>
    have hg : ¬ 1 < g.length := hl g (List.mem_cons_self g rest)
    have hrest : ∀ g' ∈ rest, ¬ 1 < g'.length := fun g' hg' => hl g' (List.mem_cons_of_mem g hg')
    match g, hg with
    | [], _ =>
      obtain ⟨m, hm, hlook⟩ := ih acc hrest
      refine ⟨m, ?_, ?_⟩
      · simpa [loadGroupsAux] using hm
      · simpa using hlook
    | [p], _ =>
      obtain ⟨m, hm, hlook⟩ := ih (dictInsert acc p.1 p.2) hrest
      refine ⟨m, ?_, ?_⟩
      · simpa [loadGroupsAux] using hm
      · intro k
        rw [hlook k, lookupGroup_dictInsert]
        have hflat : ([p] :: rest).flatten.reverse = rest.flatten.reverse ++ [p] := by
          simp
        rw [hflat, List.find?_append]
        cases hfind : rest.flatten.reverse.find? (fun q => decide (q.1 = k)) with
        | some q => simp
        | none =>
          by_cases hk : k = p.1
          · rw [if_pos hk, List.find?_cons_of_pos _ (by simpa using hk.symm)]
            simp
          · rw [if_neg hk, List.find?_cons_of_neg _ (by simpa using fun h => hk h.symm)]
            simp
    | q₁ :: q₂ :: t, hg => exact absurd (by simp only [List.length_cons]; omega) hg

theorem keys_dictInsert_of_mem (al : List (Str × Group)) (k : Str) (v : Group)
    (h : al.any (fun p => decide (p.1 = k)) = true) :
    (dictInsert al k v).map Prod.fst = al.map Prod.fst := by
  unfold dictInsert
  rw [if_pos h, List.map_map]
  refine List.map_congr_left (fun p _ => ?_)
  by_cases hp : p.1 = k
  · simp [hp]
  · simp [hp]

theorem keys_dictInsert_of_fresh (al : List (Str × Group)) (k : Str) (v : Group)
    (h : ¬ al.any (fun p => decide (p.1 = k)) = true) :
    (dictInsert al k v).map Prod.fst = al.map Prod.fst ++ [k] := by
  unfold dictInsert
  rw [if_neg h, List.map_append]
  rfl

theorem nodup_keys_dictInsert (al : List (Str × Group)) (k : Str) (v : Group)
    (h : (al.map Prod.fst).Nodup) : ((dictInsert al k v).map Prod.fst).Nodup := by
  by_cases hal : al.any (fun p => decide (p.1 = k)) = true
  · rw [keys_dictInsert_of_mem al k v hal]; exact h
  · rw [keys_dictInsert_of_fresh al k v hal]
    rw [List.nodup_append]
    refine ⟨h, List.nodup_singleton k, ?_⟩
    intro x hx hk
    rcases List.mem_singleton.mp hk with rfl
    rcases List.mem_map.mp hx with ⟨p, hp, hpk⟩
    exact hal (List.any_eq_true.mpr ⟨p, hp, by simp [hpk]⟩)

theorem nodup_keys_foldl (g : List (Str × Group)) (acc : List (Str × Group))
    (hacc : (acc.map Prod.fst).Nodup) :
    ((g.foldl (fun a p => dictInsert a p.1 p.2) acc).map Prod.fst).Nodup := by
  induction g generalizing acc with
  | nil => exact hacc
  | cons p t ih => exact ih (dictInsert acc p.1 p.2) (nodup_keys_dictInsert _ _ _ hacc)

theorem loadGroupsAux_nodup_keys (l : List SetEntry) (acc : List (Str × Group))
    (hacc : (acc.map Prod.fst).Nodup) (m : List (Str × Group))
    (hm : loadGroupsAux acc l = .ok m) : (m.map Prod.fst).Nodup := by
  induction l generalizing acc with
  | nil =>
    simp only [loadGroupsAux] at hm
    cases hm
    exact hacc
  | cons g rest ih =>
    by_cases hg : 1 < g.length
    · rw [loadGroupsAux, if_pos hg] at hm
      exact Except.noConfusion hm
    · rw [loadGroupsAux, if_neg hg] at hm
      exact ih _ (nodup_keys_foldl g acc hacc) hm

theorem loadGroupsAux_fresh (l : List SetEntry) (acc : List (Str × Group))
    (hsingle : ∀ g ∈ l, g.length = 1)
    (hnodup : ((acc ++ l.flatten).map Prod.fst).Nodup) :
    loadGroupsAux acc l = .ok (acc ++ l.flatten) := by
  induction l generalizing acc with
  | nil => simp [loadGroupsAux]
  | cons g rest ih =>
    have hg1 : g.length = 1 := hsingle g (List.mem_cons_self g rest)
    have hsing : ∃ p, g = [p] := by
      match g, hg1 with
      | [p], _ => exact ⟨p, rfl⟩
    obtain ⟨p, rfl⟩ := hsing
    have hnotlt : ¬ 1 < ([p] : SetEntry).length := by simp
    rw [loadGroupsAux, if_neg hnotlt]
    have hfresh : ¬ acc.any (fun q => decide (q.1 = p.1)) = true := by
      intro hany
      obtain ⟨q, hq, hqk⟩ := List.any_eq_true.mp hany
      have hq1 : q.1 = p.1 := of_decide_eq_true hqk
      have hsplit : ((acc ++ ([p] :: rest).flatten).map Prod.fst) =
          acc.map Prod.fst ++ (p.1 :: rest.flatten.map Prod.fst) := by simp
      rw [hsplit, List.nodup_append] at hnodup
      exact hnodup.2.2 (List.mem_map.mpr ⟨q, hq, hq1⟩) (List.mem_cons_self _ _)
    have hstep : List.foldl (fun a p => dictInsert a p.1 p.2) acc [p] = acc ++ [p] := by
      show dictInsert acc p.1 p.2 = acc ++ [p]
      unfold dictInsert
      rw [if_neg hfresh]
    have happ : (acc ++ [p]) ++ rest.flatten = acc ++ ([p] :: rest).flatten := by simp
    rw [hstep, ih (acc ++ [p]) (fun g' hg' => hsingle g' (List.mem_cons_of_mem _ hg'))
      (by rw [happ]; exact hnodup)]
    rw [happ]

/-! ### Only configuration errors can occur during the write phase -/

theorem fileHeader_error_shape (lang : Str) (e : Err) (h : fileHeader lang = .error e) :
    ∃ m, e = .configurationError m := by
  unfold fileHeader at h
  by_cases h1 : lang = str "cxx"
  · rw [if_pos h1] at h; exact Except.noConfusion h
  · rw [if_neg h1] at h
    by_cases h2 : lang = str "f90"
    · rw [if_pos h2] at h; exact Except.noConfusion h
    · rw [if_neg h2] at h
      injection h with h3
      exact ⟨_, h3.symm⟩

theorem sectionHeader_error_shape (lang gname : Str) (e : Err)
    (h : sectionHeader lang gname = .error e) : ∃ m, e = .configurationError m := by
  unfold sectionHeader at h
  by_cases h1 : lang = str "cxx"
  · rw [if_pos h1] at h; exact Except.noConfusion h
  · rw [if_neg h1] at h
    by_cases h2 : lang = str "f90"
    · rw [if_pos h2] at h; exact Except.noConfusion h
    · rw [if_neg h2] at h
      injection h with h3
      exact ⟨_, h3.symm⟩

theorem declLine_error_shape (lang : Str) (c : ConstantEntry) (e : Err)
    (h : declLine lang c = .error e) : ∃ m, e = .configurationError m := by
  unfold declLine at h
  by_cases h1 : lang = str "cxx"
  · rw [if_pos h1] at h; exact Except.noConfusion h
  · rw [if_neg h1] at h
    by_cases h2 : lang = str "f90"
    · rw [if_pos h2] at h; exact Except.noConfusion h
    · rw [if_neg h2] at h
      injection h with h3
      exact ⟨_, h3.symm⟩

theorem fileFooter_error_shape (lang : Str) (e : Err) (h : fileFooter lang = .error e) :
    ∃ m, e = .configurationError m := by
  unfold fileFooter at h
  by_cases h1 : lang = str "cxx"
  · rw [if_pos h1] at h; exact Except.noConfusion h
  · rw [if_neg h1] at h
    by_cases h2 : lang = str "f90"
    · rw [if_pos h2] at h; exact Except.noConfusion h
    · rw [if_neg h2] at h
      injection h with h3
      exact ⟨_, h3.symm⟩

theorem emitEntries_error_shape (lang : Str) (cs : List ConstantEntry) (acc : List Str)
    (e : Err) (h : (emitEntries lang cs acc).2 = .error e) :
    ∃ m, e = .configurationError m := by
  induction cs generalizing acc with
  | nil => exact Except.noConfusion h
  | cons c rest ih =>
    rw [emitEntries] at h
    cases hd : declLine lang c with
    | ok s =>
      rw [hd] at h
      exact ih _ h
    | error e' =>
      rw [hd] at h
      injection h with h3
      exact h3 ▸ declLine_error_shape lang c e' hd


theorem emitGroups_error_shape (lang : Str) (groups : Option (List Str))
    (items : List (Str × Group)) (acc : List Str) (e : Err)
    (h : (emitGroups lang groups items acc).2 = .error e) :
    ∃ m, e = .configurationError m := by
  induction items generalizing acc with
  | nil => exact Except.noConfusion h
  | cons p rest ih =>
    obtain ⟨gname, grp⟩ := p
    by_cases hs : selected groups gname
    · simp only [emitGroups, if_pos hs] at h
      cases hsec : sectionHeader lang gname with
      | error e' =>
        simp only [hsec] at h
        exact (Except.error.inj h) ▸ sectionHeader_error_shape lang gname e' hsec
      | ok s =>
        simp only [hsec] at h
        cases hent : emitEntries lang grp.entries (acc ++ [s]) with
        | mk acc2 r =>
          cases r with
          | ok u =>
            simp only [hent] at h
            exact ih acc2 h
          | error e' =>
            simp only [hent] at h
            exact (Except.error.inj h) ▸ emitEntries_error_shape lang grp.entries (acc ++ [s]) e' (by rw [hent])
    · simp only [emitGroups, if_neg hs] at h
      exact ih acc h

theorem writePhase_error_shape (lang : Str) (groups : Option (List Str))
    (gif : List (Str × Group)) (e : Err) (h : (writePhase lang groups gif).2 = .error e) :
    ∃ m, e = .configurationError m := by
  rw [writePhase] at h
  cases hhdr : fileHeader lang with
  | error e' =>
    simp only [hhdr] at h
    exact (Except.error.inj h) ▸ fileHeader_error_shape lang e' hhdr
  | ok hdr =>
    simp only [hhdr] at h
    cases hemit : emitGroups lang groups gif hdr with
    | mk acc r =>
      cases r with
      | error e' =>
        simp only [hemit] at h
        exact (Except.error.inj h) ▸ emitGroups_error_shape lang groups gif hdr e' (by rw [hemit])
      | ok u =>
        simp only [hemit] at h
        cases hftr : fileFooter lang with
        | error e' =>
          simp only [hftr] at h
          exact (Except.error.inj h) ▸ fileFooter_error_shape lang e' hftr
        | ok ftr =>
          simp only [hftr] at h
          exact Except.noConfusion h

/-! ### Re-parsing group headers from the output (for the round-trip property) -/

theorem stripTail_append (t g : Str) : stripTail t (g ++ t) = some g := by
  have hlen : (g ++ t).length - t.length = g.length := by
    rw [List.length_append]; omega
  unfold stripTail
  rw [hlen, List.take_left]
  rw [if_pos rfl]

theorem parseSection_sectChunk {lang : Str} (h : langOk lang) (g : Str) :
    parseSection lang (sectChunk lang g) = some g := by
  rcases h with h | h <;> subst h <;> exact stripTail_append (str " constants\n") g

theorem parseSection_declChunk {lang : Str} (h : langOk lang) (c : ConstantEntry) :
    parseSection lang (declChunk lang c) = none := by
  rcases h with h | h <;> subst h <;> rfl

theorem reparse_hdrChunks {lang : Str} (h : langOk lang) :
    (hdrChunks lang).filterMap (parseSection lang) = [] := by
  rcases h with h | h <;> subst h <;> decide

theorem reparse_ftrChunks {lang : Str} (h : langOk lang) :
    (ftrChunks lang).filterMap (parseSection lang) = [] := by
  rcases h with h | h <;> subst h <;> decide

theorem reparse_blocks {lang : Str} (h : langOk lang) (m : List (Str × Group)) :
    ((m.map (groupBlock lang)).flatten).filterMap (parseSection lang) = m.map Prod.fst := by
  induction m with
  | nil => rfl
  | cons p m ih =>
    have hdecls : ∀ cs : List ConstantEntry,
        (cs.map (declChunk lang)).filterMap (parseSection lang) = [] := by
      intro cs
      induction cs with
      | nil => rfl
      | cons c t iht =>
        rw [List.map_cons, List.filterMap_cons_none (parseSection_declChunk h c)]
        exact iht
    rw [List.map_cons, List.flatten_cons, List.filterMap_append, ih, groupBlock,
      List.filterMap_cons_some (parseSection_sectChunk h p.1), hdecls]
    rfl

/-! ### Membership in an intercalated list of names -/

theorem mem_isInfix_intercalate (x : Str) (l : List Str) (hx : x ∈ l) :
    x <:+: List.intercalate [','] l := by
  induction l with
  | nil => exact absurd hx (List.not_mem_nil x)
  | cons a l ih =>
    cases l with
    | nil =>
      rcases List.mem_cons.mp hx with rfl | hmem
      · exact ⟨[], [], by simp [List.intercalate]⟩
      · exact absurd hmem (List.not_mem_nil x)
    | cons b t =>
      have hstep : List.intercalate [','] (a :: b :: t) =
          a ++ [','] ++ List.intercalate [','] (b :: t) := by
        simp [List.intercalate]
      rcases List.mem_cons.mp hx with rfl | hmem
      · exact ⟨[], [','] ++ List.intercalate [','] (b :: t), by rw [hstep]; simp⟩
      · obtain ⟨s, u, hsu⟩ := ih hmem
        exact ⟨a ++ [','] ++ s, u, by rw [hstep, hsu.symm]; simp⟩

theorem isInfix_extend (y A B C : Str) (h : y <:+: B) : y <:+: A ++ B ++ C := by
  obtain ⟨s, t, hst⟩ := h
  exact ⟨A ++ s, t ++ C, by rw [hst.symm]; simp⟩

/-! ### The selected groups under a one-element filter -/

theorem filter_selected_singleton (m : List (Str × Group)) (hnd : (m.map Prod.fst).Nodup)
    (g : Str) (grp : Group) (hmem : (g, grp) ∈ m) :
    m.filter (fun p => selected (some [g]) p.1) = [(g, grp)] := by
  induction m with
  | nil => exact absurd hmem (List.not_mem_nil _)
  | cons a m ih =>
    rw [List.map_cons, List.nodup_cons] at hnd
    rcases List.mem_cons.mp hmem with rfl | hmem'
    · rw [List.filter_cons_of_pos (by simp [selected])]
      have hnil : m.filter (fun p => selected (some [g]) p.1) = [] := by
        rw [List.filter_eq_nil_iff]
        intro p hp
        simp only [selected, List.any_cons, List.any_nil, Bool.or_false, decide_eq_true_eq]
        intro hg
        exact hnd.1 (List.mem_map.mpr ⟨p, hp, hg.symm⟩)
      rw [hnil]
    · have hne : ¬ a.1 = g := by
        intro hag
        exact hnd.1 (List.mem_map.mpr ⟨(g, grp), hmem', hag.symm⟩)
      rw [List.filter_cons_of_neg (by simp [selected]; exact fun hg => hne hg.symm)]
      exact ih hnd.2 hmem'

/-! ### Reducing a validated call to its write phase -/

theorem generate_file_write (lang : Str) (groups : Option (List Str)) (pcdSet : List SetEntry)
    (prior : Option (List Str)) (gif : List (Str × Group))
    (hload : loadGroups pcdSet = .ok gif)
    (hfilter : ∀ gs, groups = some gs → ∀ x ∈ gs, x ∈ validGroupsOf gif) :
    generate_file lang groups pcdSet prior = writePhase lang groups gif := by
  cases groups with
  | none => simp only [generate_file, hload]
  | some gs =>
    have hnot : ¬ gs.any (fun item => decide (¬ item ∈ validGroupsOf gif)) = true := by
      intro htrue
      obtain ⟨x, hx, hdec⟩ := List.any_eq_true.mp htrue
      exact absurd (hfilter gs rfl x hx) (of_decide_eq_true hdec)
    simp only [generate_file, hload]
    rw [if_neg hnot]

/-! ### The claims -/

/-- C1 (amended): loading fails with the malformed-database `ValueError` if and
only if some entry of the `set` sequence has MORE than one key. A zero-key
entry is accepted without error (the check in the source is
`len(g.keys()) > 1`, so "not exactly one key" overstates it): this is where
the amended claim differs from the original. The hypothesis records that each
entry is a parsed mapping, whose keys are distinct. -/
theorem claim_C1_amended (pcdSet : List SetEntry)
    (_hkeys : ∀ g ∈ pcdSet, (g.map Prod.fst).Nodup) :
    loadGroups pcdSet = .error .malformedDatabase ↔ ∃ g ∈ pcdSet, 1 < g.length :=
  loadGroupsAux_malformed_iff pcdSet []

/-- C1 witness: a two-key entry is rejected, a one-key entry is not. -/
theorem claim_C1_amended_witness :
    loadGroups [[(str "a", (⟨[]⟩ : Group)), (str "b", (⟨[]⟩ : Group))]] =
      .error .malformedDatabase ∧
    ¬ loadGroups [[(str "a", (⟨[]⟩ : Group))]] = .error .malformedDatabase := by
  constructor
  · exact (claim_C1_amended [[(str "a", ⟨[]⟩), (str "b", ⟨[]⟩)]] (by decide)).mpr
      ⟨[(str "a", ⟨[]⟩), (str "b", ⟨[]⟩)], by decide, by decide⟩
  · intro hcontra
    exact absurd ((claim_C1_amended [[(str "a", ⟨[]⟩)]] (by decide)).mp hcontra) (by decide)

/-- C1 counterexample: the claim says a group entry with ZERO keys raises the
malformed-database error, but loading a `set` whose only entry is the empty
mapping succeeds (the source only checks `len(g.keys()) > 1`). -/
theorem claim_C1_counterexample :
    loadGroups [([] : SetEntry)] = .ok [] ∧
      ¬ loadGroups [([] : SetEntry)] = .error .malformedDatabase := by
  decide

/-- C2: for every loadable database and every group filter containing a name
that is not a group name of the database, `generate_file` fails with the
invalid-group-selection `ValueError`, leaves the output file untouched, and
the rendered message contains every requested name absent from the database
and every valid group name. -/
theorem claim_C2 (lang : Str) (pcdSet : List SetEntry) (gif : List (Str × Group))
    (hload : loadGroups pcdSet = .ok gif) (gs : List Str) (x : Str)
    (hx : x ∈ gs) (hxnot : ¬ x ∈ validGroupsOf gif) (prior : Option (List Str)) :
    generate_file lang (some gs) pcdSet prior =
      (prior, .error (.invalidGroupSelection gs (validGroupsOf gif))) ∧
    (∀ y ∈ gs, ¬ y ∈ validGroupsOf gif →
      y <:+: errMessage (.invalidGroupSelection gs (validGroupsOf gif))) ∧
    (∀ v ∈ validGroupsOf gif,
      v <:+: errMessage (.invalidGroupSelection gs (validGroupsOf gif))) := by
  refine ⟨?_, ?_, ?_⟩
  · have hcond : gs.any (fun item => decide (¬ item ∈ validGroupsOf gif)) = true :=
      List.any_eq_true.mpr ⟨x, hx, decide_eq_true hxnot⟩
    simp only [generate_file, hload]
    rw [if_pos hcond]
  · intro y hy _
    have hshape : errMessage (.invalidGroupSelection gs (validGroupsOf gif)) =
        str "Invalid value for groups: " ++ List.intercalate [','] gs ++
          (str ". Valid choices are " ++ List.intercalate [','] (validGroupsOf gif)) := by
      simp [errMessage, List.append_assoc]
    rw [hshape]
    exact isInfix_extend y _ _ _ (mem_isInfix_intercalate y gs hy)
  · intro v hv
    have hshape : errMessage (.invalidGroupSelection gs (validGroupsOf gif)) =
        (str "Invalid value for groups: " ++ List.intercalate [','] gs ++
          str ". Valid choices are ") ++ List.intercalate [','] (validGroupsOf gif) ++ [] := by
      simp [errMessage, List.append_assoc]
    rw [hshape]
    exact isInfix_extend v _ _ _ (mem_isInfix_intercalate v (validGroupsOf gif) hv)

/-- C2 witness: requesting the absent group name `nope` fails as described. -/
theorem claim_C2_witness :
    generate_file (str "cxx") (some [str "nope"]) [[(str "g", (⟨[]⟩ : Group))]] none =
      (none, .error (.invalidGroupSelection [str "nope"] [str "g"])) ∧
    str "nope" <:+: errMessage (.invalidGroupSelection [str "nope"] [str "g"]) ∧
    str "g" <:+: errMessage (.invalidGroupSelection [str "nope"] [str "g"]) := by
  obtain ⟨h1, h2, h3⟩ := claim_C2 (str "cxx") [[(str "g", ⟨[]⟩)]] [(str "g", ⟨[]⟩)]
    (by decide) [str "nope"] (str "nope") (by decide) (by decide) none
  exact ⟨h1, h2 (str "nope") (by decide) (by decide), h3 (str "g") (by decide)⟩

/-- C3: whenever `generate_file` fails with the malformed-database error or
with an invalid group selection, the output file state is exactly the prior
state: both validations happen before `open(filename, 'w')`. -/
theorem claim_C3 (lang : Str) (groups : Option (List Str)) (pcdSet : List SetEntry)
    (prior : Option (List Str))
    (h : (generate_file lang groups pcdSet prior).2 = .error .malformedDatabase ∨
         ∃ req valid, (generate_file lang groups pcdSet prior).2 =
           .error (.invalidGroupSelection req valid)) :
    (generate_file lang groups pcdSet prior).1 = prior := by
  cases hload : loadGroups pcdSet with
  | error e => simp [generate_file, hload]
  | ok gif =>
    cases groups with
    | none =>
      exfalso
      have hgen : generate_file lang none pcdSet prior = writePhase lang none gif := by
        simp only [generate_file, hload]
      rw [hgen] at h
      rcases h with h | ⟨req, valid, h⟩
      · obtain ⟨m, hm⟩ := writePhase_error_shape lang none gif _ h
        exact Err.noConfusion hm
      · obtain ⟨m, hm⟩ := writePhase_error_shape lang none gif _ h
        exact Err.noConfusion hm
    | some gs =>
      by_cases hcond : gs.any (fun item => decide (¬ item ∈ validGroupsOf gif)) = true
      · simp only [generate_file, hload]
        rw [if_pos hcond]
      · exfalso
        have hgen : generate_file lang (some gs) pcdSet prior =
            writePhase lang (some gs) gif := by
          simp only [generate_file, hload]
          rw [if_neg hcond]
        rw [hgen] at h
        rcases h with h | ⟨req, valid, h⟩
        · obtain ⟨m, hm⟩ := writePhase_error_shape lang (some gs) gif _ h
          exact Err.noConfusion hm
        · obtain ⟨m, hm⟩ := writePhase_error_shape lang (some gs) gif _ h
          exact Err.noConfusion hm

/-- C3 witness: a malformed database leaves the pre-existing file intact. -/
theorem claim_C3_witness :
    (generate_file (str "cxx") none
      [[(str "a", (⟨[]⟩ : Group)), (str "b", (⟨[]⟩ : Group))]]
      (some [str "OLD"])).1 = some [str "OLD"] :=
  claim_C3 (str "cxx") none [[(str "a", ⟨[]⟩), (str "b", ⟨[]⟩)]] (some [str "OLD"])
    (Or.inl (by decide))

/-- C4: filtering exactness. For a valid database (single-key entries, unique
group names), either language, and a group `g` of the database with entries
`grp.entries`, generating with filter `[g]` produces exactly the header, the
group block of `g` (its group-header comment followed by one declaration per
entry of `g`, and nothing else), and the footer: the entries of every other
group contribute no chunk to the output. -/
theorem claim_C4 (lang : Str) (hlang : langOk lang) (pcdSet : List SetEntry)
    (hsingle : ∀ g ∈ pcdSet, g.length = 1)
    (hnames : ((pcdSet.flatten).map Prod.fst).Nodup)
    (g : Str) (grp : Group) (hmem : (g, grp) ∈ pcdSet.flatten)
    (prior : Option (List Str)) :
    generate_file lang (some [g]) pcdSet prior =
      (some (hdrChunks lang ++ groupBlock lang (g, grp) ++ ftrChunks lang), .ok ()) := by
  have hload : loadGroups pcdSet = .ok pcdSet.flatten :=
    loadGroupsAux_fresh pcdSet [] hsingle (by simpa using hnames)
  have hfilter : ∀ gs, some [g] = some gs → ∀ x ∈ gs, x ∈ validGroupsOf pcdSet.flatten := by
    intro gs hgs x hx
    cases hgs
    rcases List.mem_cons.mp hx with rfl | hx'
    · exact List.mem_map.mpr ⟨(x, grp), hmem, rfl⟩
    · exact absurd hx' (List.not_mem_nil x)
  rw [generate_file_write lang (some [g]) pcdSet prior pcdSet.flatten hload hfilter,
    writePhase_eq hlang, filter_selected_singleton pcdSet.flatten hnames g grp hmem]
  simp

/-- C4 witness: filtering the two-group demo database to its second group. -/
theorem claim_C4_witness :
    generate_file (str "cxx") (some [str "g2"])
      [[(str "g1", (⟨[⟨str "A", str "1"⟩]⟩ : Group))],
       [(str "g2", (⟨[⟨str "B", str "2"⟩]⟩ : Group))]] none =
      (some (hdrChunks (str "cxx") ++
             groupBlock (str "cxx") (str "g2", (⟨[⟨str "B", str "2"⟩]⟩ : Group)) ++
             ftrChunks (str "cxx")), .ok ()) :=
  claim_C4 (str "cxx") (Or.inl rfl)
    [[(str "g1", ⟨[⟨str "A", str "1"⟩]⟩)], [(str "g2", ⟨[⟨str "B", str "2"⟩]⟩)]]
    (by decide) (by decide) (str "g2") ⟨[⟨str "B", str "2"⟩]⟩ (by decide) none

/-- C5: group-header round trip. For a valid database and either language,
generating without a filter succeeds and re-parsing the group-header comment
chunks of the output yields exactly the database's group names, in stored
order. -/
theorem claim_C5 (lang : Str) (hlang : langOk lang) (pcdSet : List SetEntry)
    (hsingle : ∀ g ∈ pcdSet, g.length = 1)
    (hnames : ((pcdSet.flatten).map Prod.fst).Nodup) (prior : Option (List Str)) :
    ∃ chunks, generate_file lang none pcdSet prior = (some chunks, .ok ()) ∧
      reparseGroupHeaders lang chunks = pcdSet.flatten.map Prod.fst := by
  have hload : loadGroups pcdSet = .ok pcdSet.flatten :=
    loadGroupsAux_fresh pcdSet [] hsingle (by simpa using hnames)
  have hgen := generate_file_write lang none pcdSet prior pcdSet.flatten hload
    (fun gs hgs => Option.noConfusion hgs)
  refine ⟨hdrChunks lang ++
      ((pcdSet.flatten.filter (fun p => selected none p.1)).map (groupBlock lang)).flatten ++
      ftrChunks lang, ?_, ?_⟩
  · rw [hgen, writePhase_eq hlang]
  · rw [show pcdSet.flatten.filter (fun p => selected none p.1) = pcdSet.flatten from
      List.filter_eq_self.mpr (fun a _ => rfl)]
    rw [reparseGroupHeaders, List.filterMap_append, List.filterMap_append,
      reparse_hdrChunks hlang, reparse_ftrChunks hlang, reparse_blocks hlang]
    simp

/-- C5 witness: the two group names come back in order. -/
theorem claim_C5_witness :
    ∃ chunks, generate_file (str "cxx") none
        [[(str "math", (⟨[]⟩ : Group))], [(str "geo", (⟨[]⟩ : Group))]] none =
        (some chunks, .ok ()) ∧
      reparseGroupHeaders (str "cxx") chunks = [str "math", str "geo"] := by
  obtain ⟨chunks, h1, h2⟩ := claim_C5 (str "cxx") (Or.inl rfl)
    [[(str "math", ⟨[]⟩)], [(str "geo", ⟨[]⟩)]] (by decide) (by decide) none
  exact ⟨chunks, h1, by rw [h2]; rfl⟩

/-- C6: determinism / idempotence. A successful run never reads the prior
file state, so two runs with the same language, filter and database produce
identical results — in particular byte-identical output files — whatever the
output path held before each run. -/
theorem claim_C6 (lang : Str) (groups : Option (List Str)) (pcdSet : List SetEntry)
    (prior1 prior2 : Option (List Str))
    (h : (generate_file lang groups pcdSet prior1).2 = .ok ()) :
    generate_file lang groups pcdSet prior1 = generate_file lang groups pcdSet prior2 := by
  cases hload : loadGroups pcdSet with
  | error e => simp [generate_file, hload] at h
  | ok gif =>
    cases groups with
    | none => simp only [generate_file, hload]
    | some gs =>
      by_cases hcond : gs.any (fun item => decide (¬ item ∈ validGroupsOf gif)) = true
      · exfalso
        have hne : (generate_file lang (some gs) pcdSet prior1).2 =
            .error (.invalidGroupSelection gs (validGroupsOf gif)) := by
          simp only [generate_file, hload]
          rw [if_pos hcond]
        rw [hne] at h
        exact Except.noConfusion h
      · simp only [generate_file, hload]
        rw [if_neg hcond, if_neg hcond]

/-- C6 witness: rerunning over a stale file reproduces the same output. -/
theorem claim_C6_witness :
    generate_file (str "cxx") none [[(str "g", (⟨[]⟩ : Group))]] none =
      generate_file (str "cxx") none [[(str "g", (⟨[]⟩ : Group))]] (some [str "OLD"]) :=
  claim_C6 (str "cxx") none [[(str "g", ⟨[]⟩)]] none (some [str "OLD"]) (by decide)

/-- C7: the concrete two-group scenario in language `cxx`: the output is, in
order, the include guard and namespace header, the mathematics group-header
comment, the PI declaration, the geophysics group-header comment, the GRAVITY
declaration, and the namespace-close/include-guard-close footer. -/
theorem claim_C7 :
    generate_file (str "cxx") none
      [[(str "mathematics", (⟨[⟨str "PI", str "3.14159265358979323846"⟩]⟩ : Group))],
       [(str "geophysics", (⟨[⟨str "GRAVITY", str "9.80616"⟩]⟩ : Group))]] none =
      (some [str "#ifndef E3SM_CONSTANTS_HPP\n",
             str "#define E3SM_CONSTANTS_HPP\n\n",
             str "namespace e3sm \x7b\n",
             str "\n// mathematics constants\n",
             str "constexpr double PI = 3.14159265358979323846;\n",
             str "\n// geophysics constants\n",
             str "constexpr double GRAVITY = 9.80616;\n",
             str "\n\x7d // namespace e3sm \n",
             str "#endif // E3SM_CONSTANTS_HPP"], .ok ()) := by
  decide

/-- C8: calling `generate_file` with a language outside `cxx`/`f90` on a
loadable database with a valid (or absent) filter raises the missing-header
`RuntimeError` only after the output file has been opened in write mode: the
file ends up created or truncated to empty (`some []`), unlike the validation
failures, which leave it at its prior state. -/
theorem claim_C8 (lang : Str) (h1 : ¬ lang = str "cxx") (h2 : ¬ lang = str "f90")
    (pcdSet : List SetEntry) (gif : List (Str × Group))
    (hload : loadGroups pcdSet = .ok gif) (groups : Option (List Str))
    (hfilter : ∀ gs, groups = some gs → ∀ x ∈ gs, x ∈ validGroupsOf gif)
    (prior : Option (List Str)) :
    generate_file lang groups pcdSet prior =
      (some [], .error (.configurationError
        (str "Missing implementation of file header for language " ++ lang))) := by
  have hhdr : fileHeader lang = .error (.configurationError
      (str "Missing implementation of file header for language " ++ lang)) := by
    unfold fileHeader
    rw [if_neg h1, if_neg h2]
  rw [generate_file_write lang groups pcdSet prior gif hload hfilter]
  simp only [writePhase, hhdr]

/-- C8 witness: language `py` truncates the pre-existing file to empty. -/
theorem claim_C8_witness :
    generate_file (str "py") none [[(str "g", (⟨[]⟩ : Group))]] (some [str "OLD"]) =
      (some [], .error (.configurationError
        (str "Missing implementation of file header for language " ++ str "py"))) :=
  claim_C8 (str "py") (by decide) (by decide) [[(str "g", ⟨[]⟩)]] [(str "g", ⟨[]⟩)]
    (by decide) none (fun gs hgs => Option.noConfusion hgs) (some [str "OLD"])

/-- C9: duplicate group names are not rejected. Loading any `set` sequence of
single-key entries succeeds, and the value the in-memory mapping holds for a
name is the one of the LAST entry carrying that name in the sequence — the
earlier entry's group is replaced, so its entries appear in no subsequent
output. -/
theorem claim_C9 (pcdSet : List SetEntry) (hl : ∀ g ∈ pcdSet, ¬ 1 < g.length) :
    ∃ m, loadGroups pcdSet = .ok m ∧
      ∀ k, lookupGroup m k =
        (pcdSet.flatten.reverse.find? (fun p => decide (p.1 = k))).map Prod.snd := by
  obtain ⟨m, hm, hlook⟩ := loadGroupsAux_lookup pcdSet [] hl
  refine ⟨m, hm, fun k => ?_⟩
  rw [hlook k]
  simp [lookupGroup]

/-- C9 witness: with two entries both named `g`, the second one wins. -/
theorem claim_C9_witness :
    ∃ m, loadGroups [[(str "g", (⟨[⟨str "A", str "1"⟩]⟩ : Group))],
                     [(str "g", (⟨[⟨str "B", str "2"⟩]⟩ : Group))]] = .ok m ∧
      lookupGroup m (str "g") = some (⟨[⟨str "B", str "2"⟩]⟩ : Group) := by
  obtain ⟨m, hm, hlook⟩ := claim_C9
    [[(str "g", ⟨[⟨str "A", str "1"⟩]⟩)], [(str "g", ⟨[⟨str "B", str "2"⟩]⟩)]] (by decide)
  refine ⟨m, hm, ?_⟩
  rw [hlook (str "g")]
  decide

/-- C10: an empty (but present) group filter passes validation and produces a
file holding only the language header and footer — no group-header comment
and no declaration chunks — for every loadable database and both languages. -/
theorem claim_C10 (lang : Str) (hlang : langOk lang) (pcdSet : List SetEntry)
    (gif : List (Str × Group)) (hload : loadGroups pcdSet = .ok gif)
    (prior : Option (List Str)) :
    generate_file lang (some []) pcdSet prior =
      (some (hdrChunks lang ++ ftrChunks lang), .ok ()) := by
  rw [generate_file_write lang (some []) pcdSet prior gif hload
    (by intro gs hgs x hx; cases hgs; exact absurd hx (List.not_mem_nil x)),
    writePhase_eq hlang]
  have hfil : gif.filter (fun p => selected (some []) p.1) = [] := by
    simp [selected]
  rw [hfil]
  simp

/-- C10 witness: the empty filter yields header plus footer only. -/
theorem claim_C10_witness :
    generate_file (str "f90") (some []) [[(str "g", (⟨[⟨str "A", str "1"⟩]⟩ : Group))]] none =
      (some (hdrChunks (str "f90") ++ ftrChunks (str "f90")), .ok ()) :=
  claim_C10 (str "f90") (Or.inr rfl) [[(str "g", ⟨[⟨str "A", str "1"⟩]⟩)]]
    [(str "g", ⟨[⟨str "A", str "1"⟩]⟩)] (by decide) none

end PCD
